import Mathlib

/-!
Key space of the CCV consumer module.

Shallow embedding of `x/ccv/consumer/types/keys.go`: the twelve tag bytes, the
key and prefix builders, and the decoder of packet-maturity-time keys, followed
by the properties of the key layout.

Conventions of the embedding.
* A Go `[]byte` is a `List Byte`, where `Byte = Fin 256`.
* A `uint64` is a `Nat` below `2 ^ 64`, an `int64` an `Int` in
  `[-2 ^ 63, 2 ^ 63)`; the bounds are hypotheses of the theorems.
* A call that can end abnormally yields an `Outcome`: a value, an error value
  handed back to the caller, or a run-time panic.
-/

namespace KeySpace

/-! ## Data model -/

/-- A Go `byte`, an unsigned 8-bit value. -/
abbrev Byte := Fin 256

/-- The conversion `byte(v)` of an unsigned integer, which keeps the low 8 bits. -/
def toByte (v : Nat) : Byte := ⟨v % 256, Nat.mod_lt v (by decide)⟩

/-- Error values of the address package. `unknownAddress max got` is
`ErrUnknownAddress` wrapped with "address length should be max %d bytes, got %d". -/
inductive SdkError where
  | unknownAddress (max got : Nat)
  deriving DecidableEq

/-- The ways a Go call can abort: the two run-time bounds faults, and
`panic(err)` raised on an error value. -/
inductive RuntimePanic where
  | sliceBoundsOutOfRange
  | indexOutOfRange
  | errorValue (e : SdkError)
  deriving DecidableEq

/-- How a call ends: `value v` is a normal return, `error e` a return that hands
an error value to the caller, `panic p` an abort that returns nothing. -/
inductive Outcome (α : Type) where
  | value (v : α)
  | error (e : SdkError)
  | panic (p : RuntimePanic)
  deriving DecidableEq

/-- Sequencing of two calls: the second runs only when the first returns a value. -/
def Outcome.bind {α β : Type} (o : Outcome α) (f : α → Outcome β) : Outcome β :=
  match o with
  | .value v => f v
  | .error e => .error e
  | .panic p => .panic p

/-! ## Tag bytes (the `iota` block, lines 37-75) -/

def PortByteKey : Byte := 0
def LastDistributionTransmissionByteKey : Byte := 1
def UnbondingTimeByteKey : Byte := 2
def ProviderClientByteKey : Byte := 3
def ProviderChannelByteKey : Byte := 4
def PendingChangesByteKey : Byte := 5
def HistoricalInfoBytePrefix : Byte := 6
def PacketMaturityTimeBytePrefix : Byte := 7
def HeightValsetUpdateIDBytePrefix : Byte := 8
def OutstandingDowntimeBytePrefix : Byte := 9
def PendingSlashRequestsBytePrefix : Byte := 10
def CrossChainValidatorBytePrefix : Byte := 11

/-! ## Singleton keys and prefixes (lines 78-136) -/

def PortKey : List Byte := [PortByteKey]
def LastDistributionTransmissionKey : List Byte := [LastDistributionTransmissionByteKey]
def UnbondingTimeKey : List Byte := [UnbondingTimeByteKey]
def ProviderClientKey : List Byte := [ProviderClientByteKey]
def ProviderChannelKey : List Byte := [ProviderChannelByteKey]
def PendingChangesKey : List Byte := [PendingChangesByteKey]
def HistoricalInfoPrefix : List Byte := [HistoricalInfoBytePrefix]
def PacketMaturityTimePrefix : List Byte := [PacketMaturityTimeBytePrefix]
def HeightValsetUpdateIDPrefix : List Byte := [HeightValsetUpdateIDBytePrefix]
def OutstandingDowntimePrefix : List Byte := [OutstandingDowntimeBytePrefix]
def PendingSlashRequestsPrefix : List Byte := [PendingSlashRequestsBytePrefix]
def CrossChainValidatorPrefix : List Byte := [CrossChainValidatorBytePrefix]

/-! ## Library calls used by the builders -/

/-- Contents of a fresh 8-byte buffer after `binary.BigEndian.PutUint64(buf, v)`:
`buf[0] = byte(v >> 56)`, ..., `buf[7] = byte(v)`. -/
def PutUint64 (v : Nat) : List Byte :=
  [toByte (v >>> 56), toByte (v >>> 48), toByte (v >>> 40), toByte (v >>> 32),
   toByte (v >>> 24), toByte (v >>> 16), toByte (v >>> 8), toByte v]

/-- The call `binary.BigEndian.Uint64(b)`: the bounds check `_ = b[7]` faults on
fewer than 8 bytes; otherwise the first 8 bytes are combined, most significant
first, and the bytes after them are not read. Every operand fits in 64 bits, so
the shifts lose nothing. -/
def Uint64 (b : List Byte) : Outcome Nat :=
  match b with
  | b0 :: b1 :: b2 :: b3 :: b4 :: b5 :: b6 :: b7 :: _ =>
      .value (b7.val ||| b6.val <<< 8 ||| b5.val <<< 16 ||| b4.val <<< 24 |||
        b3.val <<< 32 ||| b2.val <<< 40 ||| b1.val <<< 48 ||| b0.val <<< 56)
  | _ => .panic .indexOutOfRange

/-- The slice expression `s[n:]`, which faults when `n` exceeds `len(s)`. -/
def sliceFrom (s : List Byte) (n : Nat) : Outcome (List Byte) :=
  if n ≤ s.length then .value (s.drop n) else .panic .sliceBoundsOutOfRange

/-- The conversion `uint64(h)` of an `int64`: the value modulo `2 ^ 64`. -/
def uint64OfInt64 (h : Int) : Nat := (h % 2 ^ 64).toNat

/-- The bound `address.MaxAddrLen` of the address package. -/
def MaxAddrLen : Nat := 255

/-- The call `address.LengthPrefix(bz)` of the cosmos-sdk dependency
(`types/address/store_key.go`), whose source lies outside this repository. In Go:

    bzLen := len(bz)
    if bzLen == 0 { return bz, nil }
    if bzLen > MaxAddrLen { return nil, sdkerrors.Wrapf(sdkerrors.ErrUnknownAddress, ...) }
    return append([]byte{byte(bzLen)}, bz...), nil

An empty input is handed back unchanged, an input longer than `MaxAddrLen` is
refused with an error, and any other input gets its length prepended as one byte. -/
def LengthPrefix (bz : List Byte) : Outcome (List Byte) :=
  if bz.length = 0 then .value bz
  else if bz.length > MaxAddrLen then .error (.unknownAddress MaxAddrLen bz.length)
  else .value (toByte bz.length :: bz)

/-- The call `address.MustLengthPrefix(bz)`: as `LengthPrefix`, with
`panic(err)` in place of the returned error. -/
def MustLengthPrefix (bz : List Byte) : Outcome (List Byte) :=
  match LengthPrefix bz with
  | .value res => .value res
  | .error e => .panic (.errorValue e)
  | .panic p => .panic p

/-! ## Indexed keys and the decoder (lines 139-172) -/

/-- Key of the maturity time of the received VSC packet `id`. -/
def PacketMaturityTimeKey (id : Nat) : List Byte :=
  PacketMaturityTimePrefix ++ PutUint64 id

/-- Packet id of a full maturity-time key:
`binary.BigEndian.Uint64(key[len(PacketMaturityTimePrefix()):])`. -/
def IdFromPacketMaturityTimeKey (key : List Byte) : Outcome Nat :=
  (sliceFrom key PacketMaturityTimePrefix.length).bind Uint64

/-- Key of the valset update id of a block height. -/
def HeightValsetUpdateIDKey (height : Nat) : List Byte :=
  HeightValsetUpdateIDPrefix ++ PutUint64 height

/-- Key of a validator's outstanding downtime; `v.Bytes()` is the address itself. -/
def OutstandingDowntimeKey (v : List Byte) : Outcome (List Byte) :=
  (MustLengthPrefix v).bind fun lp => .value (OutstandingDowntimePrefix ++ lp)

/-- Key of a cross-chain validator. -/
def CrossChainValidatorKey (addr : List Byte) : List Byte :=
  CrossChainValidatorPrefix ++ addr

/-- Key of the historical info of a block height. -/
def HistoricalInfoKey (height : Int) : List Byte :=
  HistoricalInfoPrefix ++ PutUint64 (uint64OfInt64 height)

/-! ## Notions used to state the properties -/

/-- Strict byte-wise lexicographic order, the order of `bytes.Compare`: the first
differing byte decides, and a proper prefix sorts first. -/
def bytesLess : List Byte → List Byte → Bool
  | [], [] => false
  | [], _ :: _ => true
  | _ :: _, [] => false
  | x :: xs, y :: ys => decide (x < y) || (decide (x = y) && bytesLess xs ys)

/-- Big-endian value of a byte sequence: the first byte is the most significant. -/
def beValue (bs : List Byte) : Nat :=
  bs.foldl (fun acc b => acc * 256 + b.val) 0

/-- The 8-byte big-endian encoding as the layout table words it: byte `i` of the
encoding, for `i = 0..7`, is `(x / 256 ^ (7 - i)) mod 256`. -/
def be64 (x : Nat) : List Byte :=
  (List.range 8).map fun i => toByte (x / 256 ^ (7 - i))

/-- The twelve logical fields of the store, in the order of the tag block. -/
inductive Field where
  | port
  | lastDistributionTransmission
  | unbondingTime
  | providerClient
  | providerChannel
  | pendingChanges
  | historicalInfo
  | packetMaturityTime
  | heightValsetUpdateID
  | outstandingDowntime
  | pendingSlashRequests
  | crossChainValidator
  deriving DecidableEq

/-- The tag constant that the source declares for a field. -/
def Field.tag : Field → Byte
  | .port => PortByteKey
  | .lastDistributionTransmission => LastDistributionTransmissionByteKey
  | .unbondingTime => UnbondingTimeByteKey
  | .providerClient => ProviderClientByteKey
  | .providerChannel => ProviderChannelByteKey
  | .pendingChanges => PendingChangesByteKey
  | .historicalInfo => HistoricalInfoBytePrefix
  | .packetMaturityTime => PacketMaturityTimeBytePrefix
  | .heightValsetUpdateID => HeightValsetUpdateIDBytePrefix
  | .outstandingDowntime => OutstandingDowntimeBytePrefix
  | .pendingSlashRequests => PendingSlashRequestsBytePrefix
  | .crossChainValidator => CrossChainValidatorBytePrefix

/-- The keys that the builders of a field return: `BuiltFor f k` holds when `k` is
the result of a singleton-key builder, a prefix builder or an indexed-key builder
of `f`, the latter at any well-typed index on which it returns a key. -/
inductive BuiltFor : Field → List Byte → Prop where
  | portKey : BuiltFor .port PortKey
  | lastDistributionTransmissionKey :
      BuiltFor .lastDistributionTransmission LastDistributionTransmissionKey
  | unbondingTimeKey : BuiltFor .unbondingTime UnbondingTimeKey
  | providerClientKey : BuiltFor .providerClient ProviderClientKey
  | providerChannelKey : BuiltFor .providerChannel ProviderChannelKey
  | pendingChangesKey : BuiltFor .pendingChanges PendingChangesKey
  | historicalInfoPrefix : BuiltFor .historicalInfo HistoricalInfoPrefix
  | historicalInfoKey (height : Int) (lo : -2 ^ 63 ≤ height) (hi : height < 2 ^ 63) :
      BuiltFor .historicalInfo (HistoricalInfoKey height)
  | packetMaturityTimePrefix : BuiltFor .packetMaturityTime PacketMaturityTimePrefix
  | packetMaturityTimeKey (id : Nat) (hi : id < 2 ^ 64) :
      BuiltFor .packetMaturityTime (PacketMaturityTimeKey id)
  | heightValsetUpdateIDPrefix : BuiltFor .heightValsetUpdateID HeightValsetUpdateIDPrefix
  | heightValsetUpdateIDKey (height : Nat) (hi : height < 2 ^ 64) :
      BuiltFor .heightValsetUpdateID (HeightValsetUpdateIDKey height)
  | outstandingDowntimePrefix : BuiltFor .outstandingDowntime OutstandingDowntimePrefix
  | outstandingDowntimeKey (v k : List Byte) (ok : OutstandingDowntimeKey v = .value k) :
      BuiltFor .outstandingDowntime k
  | pendingSlashRequestsPrefix : BuiltFor .pendingSlashRequests PendingSlashRequestsPrefix
  | crossChainValidatorPrefix : BuiltFor .crossChainValidator CrossChainValidatorPrefix
  | crossChainValidatorKey (addr : List Byte) :
      BuiltFor .crossChainValidator (CrossChainValidatorKey addr)


/-! ## Big-endian encoding: auxiliary lemmas -/

theorem lor_shiftLeft_eq (lo hi k : Nat) (h : lo < 2 ^ k) :
    lo ||| hi <<< k = hi * 2 ^ k + lo := by
  rw [Nat.or_comm, Nat.shiftLeft_eq, Nat.mul_comm, ← Nat.mul_add_lt_is_or h]

theorem beValue_eight (b0 b1 b2 b3 b4 b5 b6 b7 : Byte) :
    beValue [b0, b1, b2, b3, b4, b5, b6, b7] =
      b0.val * 2 ^ 56 + b1.val * 2 ^ 48 + b2.val * 2 ^ 40 + b3.val * 2 ^ 32 +
        b4.val * 2 ^ 24 + b5.val * 2 ^ 16 + b6.val * 2 ^ 8 + b7.val := by
  simp only [beValue, List.foldl]
  omega

theorem Uint64_cons8 (b0 b1 b2 b3 b4 b5 b6 b7 : Byte) (rest : List Byte) :
    Uint64 (b0 :: b1 :: b2 :: b3 :: b4 :: b5 :: b6 :: b7 :: rest) =
      .value (beValue [b0, b1, b2, b3, b4, b5, b6, b7]) := by
  have h0 := b0.isLt
  have h1 := b1.isLt
  have h2 := b2.isLt
  have h3 := b3.isLt
  have h4 := b4.isLt
  have h5 := b5.isLt
  have h6 := b6.isLt
  have h7 := b7.isLt
  simp only [Uint64, beValue_eight]
  rw [lor_shiftLeft_eq _ _ 8 (by omega), lor_shiftLeft_eq _ _ 16 (by omega),
    lor_shiftLeft_eq _ _ 24 (by omega), lor_shiftLeft_eq _ _ 32 (by omega),
    lor_shiftLeft_eq _ _ 40 (by omega), lor_shiftLeft_eq _ _ 48 (by omega),
    lor_shiftLeft_eq _ _ 56 (by omega)]
  exact congrArg Outcome.value (by omega)

theorem beValue_PutUint64 (v : Nat) (h : v < 2 ^ 64) : beValue (PutUint64 v) = v := by
  simp only [PutUint64, beValue_eight, toByte, Nat.shiftRight_eq_div_pow]
  omega



theorem Uint64_PutUint64 (v : Nat) (h : v < 2 ^ 64) : Uint64 (PutUint64 v) = .value v := by
  have h8 := Uint64_cons8 (toByte (v >>> 56)) (toByte (v >>> 48)) (toByte (v >>> 40))
    (toByte (v >>> 32)) (toByte (v >>> 24)) (toByte (v >>> 16)) (toByte (v >>> 8)) (toByte v) []
  have hv := beValue_PutUint64 v h
  simp only [PutUint64] at hv ⊢
  rw [h8, hv]

theorem PutUint64_length (v : Nat) : (PutUint64 v).length = 8 := rfl

theorem foldl_be_acc (bs : List Byte) (a : Nat) :
    bs.foldl (fun acc b => acc * 256 + b.val) a = a * 256 ^ bs.length + beValue bs := by
  induction bs generalizing a with
  | nil => simp [beValue]
  | cons b bs ih =>
    simp only [beValue, List.foldl_cons, List.length_cons] at ih ⊢
    rw [ih (a * 256 + b.val), ih (0 * 256 + b.val), pow_succ]
    ring

theorem beValue_cons (b : Byte) (bs : List Byte) :
    beValue (b :: bs) = b.val * 256 ^ bs.length + beValue bs := by
  have h := foldl_be_acc bs (0 * 256 + b.val)
  simp only [beValue, List.foldl_cons] at h ⊢
  rw [h]
  simp

theorem beValue_lt (bs : List Byte) : beValue bs < 256 ^ bs.length := by
  induction bs with
  | nil => simp [beValue]
  | cons b bs ih =>
    rw [beValue_cons, List.length_cons, pow_succ]
    have hb := b.isLt
    have : b.val * 256 ^ bs.length + 256 ^ bs.length ≤ 256 * 256 ^ bs.length := by
      have := Nat.mul_le_mul_right (256 ^ bs.length) (show b.val + 1 ≤ 256 by omega)
      rw [Nat.add_mul] at this
      omega
    omega

theorem bytesLess_iff_beValue_lt (xs ys : List Byte) (hlen : xs.length = ys.length) :
    bytesLess xs ys = true ↔ beValue xs < beValue ys := by
  induction xs generalizing ys with
  | nil =>
    cases ys with
    | nil => simp [bytesLess, beValue]
    | cons y ys => simp at hlen
  | cons x xs ih =>
    cases ys with
    | nil => simp at hlen
    | cons y ys =>
      have hl : xs.length = ys.length := by simpa using hlen
      have hx := beValue_lt xs
      have hy := beValue_lt ys
      rw [hl] at hx
      simp only [bytesLess, Bool.or_eq_true, Bool.and_eq_true, decide_eq_true_eq, ih ys hl,
        beValue_cons, hl]
      rcases Nat.lt_trichotomy x.val y.val with h | h | h
      · have hm := Nat.mul_le_mul_right (256 ^ ys.length) (show x.val + 1 ≤ y.val by omega)
        rw [Nat.add_mul] at hm
        have hxy : x < y := h
        constructor
        · intro _; omega
        · intro _; exact Or.inl hxy
      · have hxy : x = y := Fin.ext h
        subst hxy
        constructor
        · rintro (h1 | ⟨_, h2⟩)
          · exact absurd h1 (lt_irrefl _)
          · omega
        · intro h1
          exact Or.inr ⟨rfl, by omega⟩
      · have hm := Nat.mul_le_mul_right (256 ^ ys.length) (show y.val + 1 ≤ x.val by omega)
        rw [Nat.add_mul] at hm
        have hxy : y < x := h
        constructor
        · rintro (h1 | ⟨h1, _⟩)
          · exact absurd (lt_trans h1 hxy) (lt_irrefl _)
          · subst h1; exact absurd hxy (lt_irrefl _)
        · intro h1; omega

theorem bytesLess_cons_self (t : Byte) (xs ys : List Byte) :
    bytesLess (t :: xs) (t :: ys) = bytesLess xs ys := by
  simp [bytesLess]

theorem bytesLess_PutUint64 (a b : Nat) (ha : a < 2 ^ 64) (hb : b < 2 ^ 64) :
    bytesLess (PutUint64 a) (PutUint64 b) = true ↔ a < b := by
  rw [bytesLess_iff_beValue_lt (PutUint64 a) (PutUint64 b)
    ((PutUint64_length a).trans (PutUint64_length b).symm), beValue_PutUint64 a ha, beValue_PutUint64 b hb]


theorem uint64OfInt64_nonneg (h : Int) (h0 : 0 ≤ h) (h1 : h < 2 ^ 63) :
    uint64OfInt64 h = h.toNat ∧ h.toNat < 2 ^ 63 := by
  unfold uint64OfInt64
  omega

/-! ## Round trip and ordering -/

/-- C1: for every unsigned 64-bit packet id `p`, decoding the maturity-time key
built for `p` returns `p`; the decoder does not fail on it. -/
theorem decode_PacketMaturityTimeKey (p : Nat) (hp : p < 2 ^ 64) :
    IdFromPacketMaturityTimeKey (PacketMaturityTimeKey p) = .value p := by
  have h := Uint64_PutUint64 p hp
  simpa [IdFromPacketMaturityTimeKey, PacketMaturityTimeKey, PacketMaturityTimePrefix,
    sliceFrom, Outcome.bind, PutUint64_length] using h

theorem decode_PacketMaturityTimeKey_witness :
    (2 ^ 64 - 1 < 2 ^ 64) ∧
      IdFromPacketMaturityTimeKey (PacketMaturityTimeKey (2 ^ 64 - 1)) = .value (2 ^ 64 - 1) :=
  ⟨by decide, decode_PacketMaturityTimeKey (2 ^ 64 - 1) (by decide)⟩

/-- C2: on unsigned 64-bit values, `a < b` holds exactly when the maturity-time
key of `a` sorts strictly before that of `b` in byte-wise lexicographic order,
and likewise for the valset-update-id keys; the key of height 300 sorts strictly
before the key of height 65536. -/
theorem numeric_order_iff_key_order (a b : Nat) (ha : a < 2 ^ 64) (hb : b < 2 ^ 64) :
    (a < b ↔ bytesLess (PacketMaturityTimeKey a) (PacketMaturityTimeKey b) = true) ∧
    (a < b ↔ bytesLess (HeightValsetUpdateIDKey a) (HeightValsetUpdateIDKey b) = true) ∧
    bytesLess (HeightValsetUpdateIDKey 300) (HeightValsetUpdateIDKey 65536) = true := by
  refine ⟨?_, ?_, by decide⟩
  · simp only [PacketMaturityTimeKey, PacketMaturityTimePrefix, List.singleton_append,
      bytesLess_cons_self]
    exact (bytesLess_PutUint64 a b ha hb).symm
  · simp only [HeightValsetUpdateIDKey, HeightValsetUpdateIDPrefix, List.singleton_append,
      bytesLess_cons_self]
    exact (bytesLess_PutUint64 a b ha hb).symm

theorem numeric_order_iff_key_order_witness :
    (300 < 2 ^ 64) ∧ (65536 < 2 ^ 64) ∧
    (300 < 65536 ↔
      bytesLess (PacketMaturityTimeKey 300) (PacketMaturityTimeKey 65536) = true) ∧
    (300 < 65536 ↔
      bytesLess (HeightValsetUpdateIDKey 300) (HeightValsetUpdateIDKey 65536) = true) ∧
    bytesLess (HeightValsetUpdateIDKey 300) (HeightValsetUpdateIDKey 65536) = true :=
  ⟨by decide, by decide, numeric_order_iff_key_order 300 65536 (by decide) (by decide)⟩

/-- C3: for signed 64-bit heights with `0 ≤ a < b`, the historical-info key of `a`
sorts strictly before that of `b` in byte-wise lexicographic order. -/
theorem HistoricalInfoKey_strictMono (a b : Int) (h0 : 0 ≤ a) (hab : a < b)
    (hb : b < 2 ^ 63) :
    bytesLess (HistoricalInfoKey a) (HistoricalInfoKey b) = true := by
  have hua := uint64OfInt64_nonneg a h0 (by omega)
  have hub := uint64OfInt64_nonneg b (by omega) hb
  simp only [HistoricalInfoKey, HistoricalInfoPrefix, List.singleton_append,
    bytesLess_cons_self]
  rw [bytesLess_PutUint64 _ _ (by omega) (by omega)]
  omega

theorem HistoricalInfoKey_strictMono_witness :
    ((0 : Int) ≤ 255) ∧ ((255 : Int) < 256) ∧ ((256 : Int) < 2 ^ 63) ∧
      bytesLess (HistoricalInfoKey 255) (HistoricalInfoKey 256) = true :=
  ⟨by decide, by decide, by decide,
    HistoricalInfoKey_strictMono 255 256 (by decide) (by decide) (by decide)⟩


/-! ## Outstanding-downtime keys -/

theorem toByte_val_of_le (n : Nat) (h : n ≤ 255) : (toByte n).val = n := by
  simp only [toByte]
  omega

theorem OutstandingDowntimeKey_nil :
    OutstandingDowntimeKey [] = .value [OutstandingDowntimeBytePrefix] := rfl

theorem OutstandingDowntimeKey_of_ne_nil (a : List Byte) (hne : a ≠ []) (hlen : a.length ≤ 255) :
    OutstandingDowntimeKey a =
      .value (OutstandingDowntimeBytePrefix :: toByte a.length :: a) := by
  have h0 : a.length ≠ 0 := fun h => hne (List.length_eq_zero.mp h)
  have h1 : ¬ a.length > MaxAddrLen := by simp only [MaxAddrLen]; omega
  simp [OutstandingDowntimeKey, MustLengthPrefix, LengthPrefix, Outcome.bind, h0, h1,
    OutstandingDowntimePrefix]

theorem OutstandingDowntimeKey_of_too_long (a : List Byte) (hlen : 255 < a.length) :
    OutstandingDowntimeKey a = .panic (.errorValue (.unknownAddress 255 a.length)) := by
  have h0 : a.length ≠ 0 := by omega
  simp [OutstandingDowntimeKey, MustLengthPrefix, LengthPrefix, Outcome.bind, h0, hlen,
    MaxAddrLen]

/-- C4, as stated, fails at the empty address: with `a` empty and `b = 0x01` the
key of `a` is the bare tag, which is a byte-prefix of the key of `b`. -/
theorem OutstandingDowntimeKey_nests_at_empty :
    ([] : List Byte).length ≤ 255 ∧ ([1] : List Byte).length ≤ 255 ∧
    ([] : List Byte) <+: [1] ∧ ([] : List Byte) ≠ [1] ∧
    OutstandingDowntimeKey [] = .value [9] ∧
    OutstandingDowntimeKey [1] = .value [9, 1, 1] ∧
    ([9] : List Byte) <+: [9, 1, 1] := by
  refine ⟨by decide, by decide, List.nil_prefix, by decide, by decide, by decide, ?_⟩
  exact ⟨[1, 1], rfl⟩

/-- C4, amended: for non-empty addresses `a` and `b` of at most 255 bytes with `a`
a strict byte-prefix of `b`, both outstanding-downtime keys are built, they
differ, and neither is a byte-prefix of the other. -/
theorem OutstandingDowntimeKey_prefix_free (a b : List Byte) (hne : a ≠ [])
    (ha : a.length ≤ 255) (hb : b.length ≤ 255) (hpre : a <+: b) (hab : a ≠ b) :
    ∃ ka kb, OutstandingDowntimeKey a = .value ka ∧ OutstandingDowntimeKey b = .value kb ∧
      ka ≠ kb ∧ ¬ ka <+: kb ∧ ¬ kb <+: ka := by
  have hlt : a.length < b.length := by
    rcases Nat.lt_or_ge a.length b.length with h | h
    · exact h
    · exact absurd (hpre.eq_of_length (Nat.le_antisymm hpre.length_le h)) hab
  have hbne : b ≠ [] := by
    intro h
    rw [h] at hlt
    simp at hlt
  have hbyte : toByte a.length ≠ toByte b.length := by
    intro h
    have hv := congrArg Fin.val h
    rw [toByte_val_of_le _ ha, toByte_val_of_le _ hb] at hv
    omega
  refine ⟨_, _, OutstandingDowntimeKey_of_ne_nil a hne ha,
    OutstandingDowntimeKey_of_ne_nil b hbne hb, ?_, ?_, ?_⟩
  · intro h
    simp only [List.cons.injEq, true_and] at h
    exact hbyte h.1
  · intro h
    rw [List.cons_prefix_cons, List.cons_prefix_cons] at h
    exact hbyte h.2.1
  · intro h
    rw [List.cons_prefix_cons, List.cons_prefix_cons] at h
    exact hbyte h.2.1.symm

theorem OutstandingDowntimeKey_prefix_free_witness :
    ∃ ka kb, OutstandingDowntimeKey [1] = .value ka ∧ OutstandingDowntimeKey [1, 2] = .value kb ∧
      ka ≠ kb ∧ ¬ ka <+: kb ∧ ¬ kb <+: ka :=
  OutstandingDowntimeKey_prefix_free [1] [1, 2] (by decide) (by decide) (by decide)
    ⟨[2], rfl⟩ (by decide)

/-! ## Tags -/

theorem tags_injective : Function.Injective Field.tag := by
  intro f g h
  cases f <;> cases g <;> first | rfl | exact absurd h (by decide)

/-- C5: the twelve tag constants take the values 0 through 11 in declaration
order, so they are pairwise distinct and different fields have different tags. -/
theorem tags_sequential_and_distinct :
    [PortByteKey, LastDistributionTransmissionByteKey, UnbondingTimeByteKey,
      ProviderClientByteKey, ProviderChannelByteKey, PendingChangesByteKey,
      HistoricalInfoBytePrefix, PacketMaturityTimeBytePrefix, HeightValsetUpdateIDBytePrefix,
      OutstandingDowntimeBytePrefix, PendingSlashRequestsBytePrefix,
      CrossChainValidatorBytePrefix] = [0, 1, 2, 3, 4, 5, 6, 7, 8, 9, 10, 11] ∧
    [PortByteKey, LastDistributionTransmissionByteKey, UnbondingTimeByteKey,
      ProviderClientByteKey, ProviderChannelByteKey, PendingChangesByteKey,
      HistoricalInfoBytePrefix, PacketMaturityTimeBytePrefix, HeightValsetUpdateIDBytePrefix,
      OutstandingDowntimeBytePrefix, PendingSlashRequestsBytePrefix,
      CrossChainValidatorBytePrefix].Nodup ∧
    Function.Injective Field.tag := by
  refine ⟨rfl, by decide, ?_⟩
  intro f g h
  cases f <;> cases g <;> first | rfl | exact absurd h (by decide)

/-! ## Disjoint key ranges -/

theorem BuiltFor_head (f : Field) (k : List Byte) (h : BuiltFor f k) :
    k.head? = some f.tag := by
  cases h with
  | outstandingDowntimeKey v k ok =>
    simp only [OutstandingDowntimeKey, Outcome.bind] at ok
    split at ok
    · simp only [Outcome.value.injEq] at ok
      subst ok
      rfl
    · exact absurd ok (by simp)
    · exact absurd ok (by simp)
  | _ => rfl

/-- C6: every key built for a field is non-empty and starts with that field's own
tag; hence a key built for another field is a different key, does not start with
this field's tag, and this key does not start with the other field's tag. -/
theorem key_ranges_disjoint (f : Field) (k : List Byte) (h : BuiltFor f k) :
    k ≠ [] ∧ k.head? = some f.tag ∧
    ∀ (g : Field) (k' : List Byte), g ≠ f → BuiltFor g k' →
      k' ≠ k ∧ k'.head? ≠ some f.tag ∧ k.head? ≠ some g.tag := by
  have hk := BuiltFor_head f k h
  refine ⟨?_, hk, ?_⟩
  · intro hnil
    rw [hnil] at hk
    simp at hk
  · intro g k' hgf hg
    have hk' := BuiltFor_head g k' hg
    have htag : g.tag ≠ f.tag := fun e => hgf (tags_injective e)
    refine ⟨?_, ?_, ?_⟩
    · intro e
      rw [e, hk] at hk'
      exact htag (Option.some.inj hk').symm
    · rw [hk']
      exact fun e => htag (Option.some.inj e)
    · rw [hk]
      exact fun e => htag (Option.some.inj e).symm

theorem key_ranges_disjoint_witness :
    PacketMaturityTimeKey 5 ≠ [] ∧
    (PacketMaturityTimeKey 5).head? = some Field.packetMaturityTime.tag ∧
    ∀ (g : Field) (k' : List Byte), g ≠ Field.packetMaturityTime → BuiltFor g k' →
      k' ≠ PacketMaturityTimeKey 5 ∧ k'.head? ≠ some Field.packetMaturityTime.tag ∧
        (PacketMaturityTimeKey 5).head? ≠ some g.tag :=
  key_ranges_disjoint Field.packetMaturityTime (PacketMaturityTimeKey 5)
    (BuiltFor.packetMaturityTimeKey 5 (by decide))

/-! ## Decoding arbitrary keys -/

theorem Uint64_of_length_lt (b : List Byte) (h : b.length < 8) :
    Uint64 b = .panic .indexOutOfRange := by
  unfold Uint64
  split
  · simp only [List.length_cons] at h
    omega
  · rfl

theorem Uint64_of_length_ge (b : List Byte) (h : 8 ≤ b.length) :
    Uint64 b = .value (beValue (b.take 8)) := by
  match b, h with
  | b0 :: b1 :: b2 :: b3 :: b4 :: b5 :: b6 :: b7 :: rest, _ =>
    rw [Uint64_cons8]
    rfl
  | [], h | [_], h | [_, _], h | [_, _, _], h | [_, _, _, _], h | [_, _, _, _, _], h
  | [_, _, _, _, _, _], h | [_, _, _, _, _, _, _], h =>
    simp at h

theorem IdFromPacketMaturityTimeKey_eq (key : List Byte) (h : 1 ≤ key.length) :
    IdFromPacketMaturityTimeKey key = Uint64 (key.drop 1) := by
  simp [IdFromPacketMaturityTimeKey, sliceFrom, PacketMaturityTimePrefix, Outcome.bind, h]

/-- C7, as stated, fails at a key of length 3: the decoder hands no error value
back to the caller, it aborts with an index-out-of-range panic. -/
theorem decode_short_key_panics :
    ([7, 0, 0] : List Byte).length < 9 ∧
    IdFromPacketMaturityTimeKey [7, 0, 0] = .panic .indexOutOfRange ∧
    ¬ ∃ e, IdFromPacketMaturityTimeKey [7, 0, 0] = .error e := by
  refine ⟨by decide, by decide, ?_⟩
  rintro ⟨e, he⟩
  have h : IdFromPacketMaturityTimeKey [7, 0, 0] = .panic .indexOutOfRange := by decide
  rw [h] at he
  exact absurd he (by simp)

/-- C7, amended: on every key shorter than 9 bytes the decoder aborts with a
run-time panic (slice bounds out of range on the empty key, index out of range
on 1 to 8 bytes); it returns neither a packet id nor an error value. -/
theorem decode_short_key (key : List Byte) (h : key.length < 9) :
    (key = [] → IdFromPacketMaturityTimeKey key = .panic .sliceBoundsOutOfRange) ∧
    (key ≠ [] → IdFromPacketMaturityTimeKey key = .panic .indexOutOfRange) ∧
    (∀ v, IdFromPacketMaturityTimeKey key ≠ .value v) ∧
    (∀ e, IdFromPacketMaturityTimeKey key ≠ .error e) := by
  have h1 : key = [] → IdFromPacketMaturityTimeKey key = .panic .sliceBoundsOutOfRange := by
    intro e
    subst e
    rfl
  have h2 : key ≠ [] → IdFromPacketMaturityTimeKey key = .panic .indexOutOfRange := by
    intro hne
    have hpos : 1 ≤ key.length := List.length_pos.mpr hne
    rw [IdFromPacketMaturityTimeKey_eq key hpos]
    apply Uint64_of_length_lt
    rw [List.length_drop]
    omega
  refine ⟨h1, h2, ?_, ?_⟩
  · intro v hv
    by_cases hk : key = []
    · rw [h1 hk] at hv
      exact absurd hv (by simp)
    · rw [h2 hk] at hv
      exact absurd hv (by simp)
  · intro e he
    by_cases hk : key = []
    · rw [h1 hk] at he
      exact absurd he (by simp)
    · rw [h2 hk] at he
      exact absurd he (by simp)

theorem decode_short_key_witness :
    (([] : List Byte) = [] → IdFromPacketMaturityTimeKey [] = .panic .sliceBoundsOutOfRange) ∧
    (([] : List Byte) ≠ [] → IdFromPacketMaturityTimeKey [] = .panic .indexOutOfRange) ∧
    (∀ v, IdFromPacketMaturityTimeKey [] ≠ .value v) ∧
    (∀ e, IdFromPacketMaturityTimeKey [] ≠ .error e) :=
  decode_short_key [] (by decide)

/-- C8, as stated, fails on a key longer than 9 bytes: on the 10-byte key
`07 00 00 00 00 00 00 00 00 01` the decoder returns 0, read from positions 1 to 8,
whereas the last 8 bytes encode 1. -/
theorem decode_reads_after_prefix_not_last_eight :
    9 ≤ ([7, 0, 0, 0, 0, 0, 0, 0, 0, 1] : List Byte).length ∧
    IdFromPacketMaturityTimeKey [7, 0, 0, 0, 0, 0, 0, 0, 0, 1] = .value 0 ∧
    beValue (([7, 0, 0, 0, 0, 0, 0, 0, 0, 1] : List Byte).drop (10 - 8)) = 1 ∧
    IdFromPacketMaturityTimeKey [7, 0, 0, 0, 0, 0, 0, 0, 0, 1] ≠
      .value (beValue (([7, 0, 0, 0, 0, 0, 0, 0, 0, 1] : List Byte).drop (10 - 8))) := by
  decide

/-- C8, amended: on every key of at least 9 bytes the decoder returns the
big-endian value of the 8 bytes that follow the one-byte prefix (positions 1 to
8); these are the key's last 8 bytes when the key is exactly 9 bytes long. -/
theorem decode_long_key (key : List Byte) (h : 9 ≤ key.length) :
    IdFromPacketMaturityTimeKey key = .value (beValue ((key.drop 1).take 8)) ∧
    beValue ((key.drop 1).take 8) < 2 ^ 64 ∧
    (key.length = 9 →
      IdFromPacketMaturityTimeKey key = .value (beValue (key.drop (key.length - 8)))) := by
  have h1 : IdFromPacketMaturityTimeKey key = .value (beValue ((key.drop 1).take 8)) := by
    rw [IdFromPacketMaturityTimeKey_eq key (by omega)]
    apply Uint64_of_length_ge
    rw [List.length_drop]
    omega
  have h2 : beValue ((key.drop 1).take 8) < 2 ^ 64 := by
    have hl : ((key.drop 1).take 8).length = 8 := by
      rw [List.length_take, List.length_drop]
      omega
    have hb := beValue_lt ((key.drop 1).take 8)
    rw [hl] at hb
    exact lt_of_lt_of_le hb (by norm_num)
  refine ⟨h1, h2, ?_⟩
  intro h9
  rw [h1, h9, List.take_of_length_le]
  rw [List.length_drop]
  omega

theorem decode_long_key_witness :
    IdFromPacketMaturityTimeKey [7, 0, 0, 0, 0, 0, 0, 0, 1, 44] =
      .value (beValue ((([7, 0, 0, 0, 0, 0, 0, 0, 1, 44] : List Byte).drop 1).take 8)) ∧
    beValue ((([7, 0, 0, 0, 0, 0, 0, 0, 1, 44] : List Byte).drop 1).take 8) < 2 ^ 64 ∧
    (([7, 0, 0, 0, 0, 0, 0, 0, 1, 44] : List Byte).length = 9 →
      IdFromPacketMaturityTimeKey [7, 0, 0, 0, 0, 0, 0, 0, 1, 44] =
        .value (beValue (([7, 0, 0, 0, 0, 0, 0, 0, 1, 44] : List Byte).drop
          (([7, 0, 0, 0, 0, 0, 0, 0, 1, 44] : List Byte).length - 8)))) :=
  decode_long_key [7, 0, 0, 0, 0, 0, 0, 0, 1, 44] (by decide)

/-! ## Address length limit and layout of outstanding-downtime keys -/

/-- C9: on an address longer than 255 bytes the builder fails with the
invalid-address error and produces no key; on an address of at most 255 bytes it
produces a key; a key, once produced, never carries a truncated length byte: the
address has at most 255 bytes and a length byte at position 1 holds its exact
length. -/
theorem OutstandingDowntimeKey_length_limit (a : List Byte) :
    (255 < a.length →
      OutstandingDowntimeKey a = .panic (.errorValue (.unknownAddress 255 a.length)) ∧
        ∀ k, OutstandingDowntimeKey a ≠ .value k) ∧
    (a.length ≤ 255 → ∃ k, OutstandingDowntimeKey a = .value k) ∧
    (∀ k, OutstandingDowntimeKey a = .value k →
      a.length ≤ 255 ∧ ∀ l : Byte, k.get? 1 = some l → l.val = a.length) := by
  refine ⟨?_, ?_, ?_⟩
  · intro hlen
    have hp := OutstandingDowntimeKey_of_too_long a hlen
    refine ⟨hp, ?_⟩
    intro k hk
    rw [hp] at hk
    exact absurd hk (by simp)
  · intro hlen
    by_cases hne : a = []
    · subst hne
      exact ⟨_, OutstandingDowntimeKey_nil⟩
    · exact ⟨_, OutstandingDowntimeKey_of_ne_nil a hne hlen⟩
  · intro k hk
    rcases Nat.lt_or_ge 255 a.length with hlen | hlen
    · rw [OutstandingDowntimeKey_of_too_long a hlen] at hk
      exact absurd hk (by simp)
    · refine ⟨hlen, ?_⟩
      intro l hl
      by_cases hne : a = []
      · subst hne
        rw [OutstandingDowntimeKey_nil] at hk
        simp only [Outcome.value.injEq] at hk
        subst hk
        simp at hl
      · rw [OutstandingDowntimeKey_of_ne_nil a hne hlen] at hk
        simp only [Outcome.value.injEq] at hk
        subst hk
        simp only [List.get?_cons_succ, List.get?_cons_zero, Option.some.injEq] at hl
        subst hl
        exact toByte_val_of_le _ hlen

theorem OutstandingDowntimeKey_length_limit_witness :
    255 < (List.replicate 256 (0 : Byte)).length ∧
    OutstandingDowntimeKey (List.replicate 256 (0 : Byte)) =
      .panic (.errorValue (.unknownAddress 255 (List.replicate 256 (0 : Byte)).length)) :=
  ⟨by rw [List.length_replicate]; decide,
    ((OutstandingDowntimeKey_length_limit (List.replicate 256 (0 : Byte))).1
      (by rw [List.length_replicate]; decide)).1⟩

/-- C10, as stated, fails at the empty address: its key is the tag byte alone,
one byte long, with no length byte. -/
theorem OutstandingDowntimeKey_empty_has_no_length_byte :
    ([] : List Byte).length ≤ 255 ∧
    OutstandingDowntimeKey [] = .value [OutstandingDowntimeBytePrefix] ∧
    OutstandingDowntimeKey [] ≠
      .value ([OutstandingDowntimeBytePrefix, toByte ([] : List Byte).length] ++ []) ∧
    ([OutstandingDowntimeBytePrefix] : List Byte).length ≠ ([] : List Byte).length + 2 := by
  decide

/-- C10, amended: for every non-empty address `a` of at most 255 bytes the key is
exactly the tag, one byte holding `len(a)`, then the bytes of `a`, of length
`len(a) + 2`. -/
theorem OutstandingDowntimeKey_layout (a : List Byte) (hne : a ≠ []) (hlen : a.length ≤ 255) :
    OutstandingDowntimeKey a =
      .value ([OutstandingDowntimeBytePrefix, toByte a.length] ++ a) ∧
    (toByte a.length).val = a.length ∧
    ([OutstandingDowntimeBytePrefix, toByte a.length] ++ a).length = a.length + 2 := by
  refine ⟨OutstandingDowntimeKey_of_ne_nil a hne hlen, toByte_val_of_le _ hlen, ?_⟩
  simp

theorem OutstandingDowntimeKey_layout_witness :
    OutstandingDowntimeKey [171, 205] =
      .value ([OutstandingDowntimeBytePrefix, toByte ([171, 205] : List Byte).length] ++
        [171, 205]) ∧
    (toByte ([171, 205] : List Byte).length).val = ([171, 205] : List Byte).length ∧
    ([OutstandingDowntimeBytePrefix, toByte ([171, 205] : List Byte).length] ++
      ([171, 205] : List Byte)).length = ([171, 205] : List Byte).length + 2 :=
  OutstandingDowntimeKey_layout [171, 205] (by decide) (by decide)


/-! ## Layout of the fixed-width keys -/

theorem PutUint64_eq_be64 (x : Nat) : PutUint64 x = be64 x := by
  have hr : List.range 8 = [0, 1, 2, 3, 4, 5, 6, 7] := by decide
  simp only [PutUint64, be64, hr, List.map, Nat.shiftRight_eq_div_pow]
  norm_num

theorem be64_get (x i : Nat) (hi : i < 8) :
    ((be64 x).get? i).map Fin.val = some (x / 256 ^ (7 - i) % 256) := by
  have hr : List.range 8 = [0, 1, 2, 3, 4, 5, 6, 7] := by decide
  simp only [be64, hr, List.map]
  interval_cases i <;> rfl

theorem uint64OfInt64_lt (h : Int) : uint64OfInt64 h < 2 ^ 64 := by
  unfold uint64OfInt64
  omega

/-- C11: for every unsigned 64-bit `x` the maturity-time key and the
valset-update-id key are 9 bytes long, the tag followed by the 8-byte big-endian
encoding of `x`, whose byte `i` is `(x / 256 ^ (7 - i)) mod 256`; for every signed
64-bit `h` the historical-info key is its tag followed by the same encoding of
`h mod 2 ^ 64`. -/
theorem fixed_width_key_layout (x : Nat) (hx : x < 2 ^ 64) (h : Int)
    (hlo : -2 ^ 63 ≤ h) (hhi : h < 2 ^ 63) :
    PacketMaturityTimeKey x = PacketMaturityTimeBytePrefix :: be64 x ∧
    (PacketMaturityTimeKey x).length = 9 ∧
    HeightValsetUpdateIDKey x = HeightValsetUpdateIDBytePrefix :: be64 x ∧
    (HeightValsetUpdateIDKey x).length = 9 ∧
    (∀ i, i < 8 → ((be64 x).get? i).map Fin.val = some (x / 256 ^ (7 - i) % 256)) ∧
    beValue (be64 x) = x ∧
    HistoricalInfoKey h = HistoricalInfoBytePrefix :: be64 (h % 2 ^ 64).toNat ∧
    (HistoricalInfoKey h).length = 9 ∧
    beValue (be64 (h % 2 ^ 64).toNat) = (h % 2 ^ 64).toNat ∧
    (0 ≤ h → ((h % 2 ^ 64).toNat : Int) = h) ∧
    (h < 0 → ((h % 2 ^ 64).toNat : Int) = h + 2 ^ 64) := by
  have hu : (h % 2 ^ 64).toNat < 2 ^ 64 := uint64OfInt64_lt h
  refine ⟨?_, ?_, ?_, ?_, fun i hi => be64_get x i hi, ?_, ?_, ?_, ?_,
    fun h0 => by omega, fun h0 => by omega⟩
  · simp only [PacketMaturityTimeKey, PacketMaturityTimePrefix, List.singleton_append,
      PutUint64_eq_be64]
  · simp only [PacketMaturityTimeKey, PacketMaturityTimePrefix, List.singleton_append,
      List.length_cons, PutUint64_length]
  · simp only [HeightValsetUpdateIDKey, HeightValsetUpdateIDPrefix, List.singleton_append,
      PutUint64_eq_be64]
  · simp only [HeightValsetUpdateIDKey, HeightValsetUpdateIDPrefix, List.singleton_append,
      List.length_cons, PutUint64_length]
  · rw [← PutUint64_eq_be64]
    exact beValue_PutUint64 x hx
  · simp only [HistoricalInfoKey, HistoricalInfoPrefix, List.singleton_append,
      PutUint64_eq_be64, uint64OfInt64]
  · simp only [HistoricalInfoKey, HistoricalInfoPrefix, List.singleton_append,
      List.length_cons, PutUint64_length]
  · rw [← PutUint64_eq_be64]
    exact beValue_PutUint64 _ hu

theorem fixed_width_key_layout_witness :
    PacketMaturityTimeKey 300 = PacketMaturityTimeBytePrefix :: be64 300 ∧
    (PacketMaturityTimeKey 300).length = 9 ∧
    HeightValsetUpdateIDKey 300 = HeightValsetUpdateIDBytePrefix :: be64 300 ∧
    (HeightValsetUpdateIDKey 300).length = 9 ∧
    (∀ i, i < 8 → ((be64 300).get? i).map Fin.val = some (300 / 256 ^ (7 - i) % 256)) ∧
    beValue (be64 300) = 300 ∧
    HistoricalInfoKey (-1) = HistoricalInfoBytePrefix :: be64 ((-1 : Int) % 2 ^ 64).toNat ∧
    (HistoricalInfoKey (-1)).length = 9 ∧
    beValue (be64 ((-1 : Int) % 2 ^ 64).toNat) = ((-1 : Int) % 2 ^ 64).toNat ∧
    ((0 : Int) ≤ -1 → ((((-1 : Int) % 2 ^ 64).toNat : Nat) : Int) = -1) ∧
    ((-1 : Int) < 0 → ((((-1 : Int) % 2 ^ 64).toNat : Nat) : Int) = -1 + 2 ^ 64) :=
  fixed_width_key_layout 300 (by decide) (-1) (by decide) (by decide)

/-! ## Cross-chain validator keys -/

/-- C12: for every byte sequence `addr` the cross-chain validator key is the
one-byte prefix followed by `addr` itself, with no length byte, so it has
`len(addr) + 1` bytes; for `addr = AB CD` it is the 3-byte sequence `0B AB CD`. -/
theorem CrossChainValidatorKey_layout (addr : List Byte) :
    CrossChainValidatorKey addr = CrossChainValidatorPrefix ++ addr ∧
    CrossChainValidatorKey addr = CrossChainValidatorBytePrefix :: addr ∧
    CrossChainValidatorPrefix.length = 1 ∧
    (CrossChainValidatorKey addr).length = addr.length + 1 ∧
    CrossChainValidatorKey [0xAB, 0xCD] = CrossChainValidatorPrefix ++ [0xAB, 0xCD] ∧
    CrossChainValidatorKey [0xAB, 0xCD] = [11, 0xAB, 0xCD] := by
  refine ⟨rfl, rfl, rfl, ?_, rfl, by decide⟩
  simp [CrossChainValidatorKey, CrossChainValidatorPrefix]

/-! ## Injectivity of the indexed builders -/

theorem PutUint64_injective (a b : Nat) (ha : a < 2 ^ 64) (hb : b < 2 ^ 64)
    (h : PutUint64 a = PutUint64 b) : a = b := by
  have hv := congrArg beValue h
  rwa [beValue_PutUint64 a ha, beValue_PutUint64 b hb] at hv

theorem uint64OfInt64_injective (g h : Int) (hg0 : -2 ^ 63 ≤ g) (hg1 : g < 2 ^ 63)
    (hh0 : -2 ^ 63 ≤ h) (hh1 : h < 2 ^ 63) (e : uint64OfInt64 g = uint64OfInt64 h) :
    g = h := by
  unfold uint64OfInt64 at e
  omega

theorem OutstandingDowntimeKey_value (a : List Byte) (hlen : a.length ≤ 255) :
    OutstandingDowntimeKey a = .value
      (if a = [] then [OutstandingDowntimeBytePrefix]
        else OutstandingDowntimeBytePrefix :: toByte a.length :: a) := by
  by_cases hne : a = []
  · subst hne
    rfl
  · rw [if_neg hne]
    exact OutstandingDowntimeKey_of_ne_nil a hne hlen

/-- C13: every indexed key builder is injective: equal maturity-time keys, or
equal valset-update-id keys, come from equal unsigned 64-bit ids; equal
historical-info keys from equal signed 64-bit heights, negative ones included;
equal cross-chain validator keys from equal byte sequences; and equal
outstanding-downtime keys from equal addresses of at most 255 bytes. -/
theorem indexed_builders_injective :
    (∀ a b : Nat, a < 2 ^ 64 → b < 2 ^ 64 →
      PacketMaturityTimeKey a = PacketMaturityTimeKey b → a = b) ∧
    (∀ a b : Nat, a < 2 ^ 64 → b < 2 ^ 64 →
      HeightValsetUpdateIDKey a = HeightValsetUpdateIDKey b → a = b) ∧
    (∀ g h : Int, -2 ^ 63 ≤ g → g < 2 ^ 63 → -2 ^ 63 ≤ h → h < 2 ^ 63 →
      HistoricalInfoKey g = HistoricalInfoKey h → g = h) ∧
    (∀ a b : List Byte, CrossChainValidatorKey a = CrossChainValidatorKey b → a = b) ∧
    (∀ a b : List Byte, a.length ≤ 255 → b.length ≤ 255 →
      OutstandingDowntimeKey a = OutstandingDowntimeKey b → a = b) := by
  refine ⟨?_, ?_, ?_, ?_, ?_⟩
  · intro a b ha hb e
    simp only [PacketMaturityTimeKey, PacketMaturityTimePrefix, List.singleton_append,
      List.cons.injEq, true_and] at e
    exact PutUint64_injective a b ha hb e
  · intro a b ha hb e
    simp only [HeightValsetUpdateIDKey, HeightValsetUpdateIDPrefix, List.singleton_append,
      List.cons.injEq, true_and] at e
    exact PutUint64_injective a b ha hb e
  · intro g h hg0 hg1 hh0 hh1 e
    simp only [HistoricalInfoKey, HistoricalInfoPrefix, List.singleton_append,
      List.cons.injEq, true_and] at e
    exact uint64OfInt64_injective g h hg0 hg1 hh0 hh1
      (PutUint64_injective _ _ (uint64OfInt64_lt g) (uint64OfInt64_lt h) e)
  · intro a b e
    simpa [CrossChainValidatorKey, CrossChainValidatorPrefix] using e
  · intro a b ha hb e
    rw [OutstandingDowntimeKey_value a ha, OutstandingDowntimeKey_value b hb] at e
    simp only [Outcome.value.injEq] at e
    by_cases hae : a = [] <;> by_cases hbe : b = []
    · rw [hae, hbe]
    · rw [if_pos hae, if_neg hbe] at e
      simp at e
    · rw [if_neg hae, if_pos hbe] at e
      simp at e
    · rw [if_neg hae, if_neg hbe] at e
      simp only [List.cons.injEq, true_and] at e
      exact e.2

theorem indexed_builders_injective_witness :
    HistoricalInfoKey (-1) ≠ HistoricalInfoKey 0 :=
  fun e => absurd
    (indexed_builders_injective.2.2.1 (-1) 0 (by decide) (by decide) (by decide) (by decide) e)
    (by decide)

/-! ## Singleton keys, prefixes, and the prefix of every indexed key -/

/-- C14: each of the twelve no-argument builders returns exactly one byte, the tag
of its field, and every key returned by an indexed builder has the result of the
corresponding prefix builder as a byte-prefix. -/
theorem singleton_builders_and_key_prefixes :
    (PortKey = [PortByteKey] ∧
      LastDistributionTransmissionKey = [LastDistributionTransmissionByteKey] ∧
      UnbondingTimeKey = [UnbondingTimeByteKey] ∧
      ProviderClientKey = [ProviderClientByteKey] ∧
      ProviderChannelKey = [ProviderChannelByteKey] ∧
      PendingChangesKey = [PendingChangesByteKey] ∧
      HistoricalInfoPrefix = [HistoricalInfoBytePrefix] ∧
      PacketMaturityTimePrefix = [PacketMaturityTimeBytePrefix] ∧
      HeightValsetUpdateIDPrefix = [HeightValsetUpdateIDBytePrefix] ∧
      OutstandingDowntimePrefix = [OutstandingDowntimeBytePrefix] ∧
      PendingSlashRequestsPrefix = [PendingSlashRequestsBytePrefix] ∧
      CrossChainValidatorPrefix = [CrossChainValidatorBytePrefix]) ∧
    [PortKey, LastDistributionTransmissionKey, UnbondingTimeKey, ProviderClientKey,
      ProviderChannelKey, PendingChangesKey, HistoricalInfoPrefix, PacketMaturityTimePrefix,
      HeightValsetUpdateIDPrefix, OutstandingDowntimePrefix, PendingSlashRequestsPrefix,
      CrossChainValidatorPrefix].map List.length = List.replicate 12 1 ∧
    (∀ id : Nat, PacketMaturityTimePrefix <+: PacketMaturityTimeKey id) ∧
    (∀ height : Nat, HeightValsetUpdateIDPrefix <+: HeightValsetUpdateIDKey height) ∧
    (∀ height : Int, HistoricalInfoPrefix <+: HistoricalInfoKey height) ∧
    (∀ addr : List Byte, CrossChainValidatorPrefix <+: CrossChainValidatorKey addr) ∧
    (∀ v k : List Byte, OutstandingDowntimeKey v = .value k →
      OutstandingDowntimePrefix <+: k) := by
  refine ⟨⟨rfl, rfl, rfl, rfl, rfl, rfl, rfl, rfl, rfl, rfl, rfl, rfl⟩, by decide,
    fun id => ⟨_, rfl⟩, fun height => ⟨_, rfl⟩, fun height => ⟨_, rfl⟩,
    fun addr => ⟨_, rfl⟩, ?_⟩
  intro v k hk
  simp only [OutstandingDowntimeKey, Outcome.bind] at hk
  split at hk
  · simp only [Outcome.value.injEq] at hk
    exact ⟨_, hk⟩
  · exact absurd hk (by simp)
  · exact absurd hk (by simp)

theorem singleton_builders_and_key_prefixes_witness :
    OutstandingDowntimePrefix <+: [9, 1, 1] :=
  singleton_builders_and_key_prefixes.2.2.2.2.2.2 [1] [9, 1, 1] (by decide)

/-! ## The decoder on well-formed and foreign keys -/

theorem IdFromPacketMaturityTimeKey_of_length_ge (key : List Byte) (h : 9 ≤ key.length) :
    IdFromPacketMaturityTimeKey key = .value (beValue ((key.drop 1).take 8)) := by
  rw [IdFromPacketMaturityTimeKey_eq key (by omega)]
  apply Uint64_of_length_ge
  rw [List.length_drop]
  omega

theorem IdFromPacketMaturityTimeKey_cons_PutUint64 (t : Byte) (x : Nat) (hx : x < 2 ^ 64) :
    IdFromPacketMaturityTimeKey (t :: PutUint64 x) = .value x := by
  have h := Uint64_PutUint64 x hx
  simpa [IdFromPacketMaturityTimeKey, PacketMaturityTimePrefix, sliceFrom, Outcome.bind,
    PutUint64_length] using h

/-- C15: on every key of at least 9 bytes the decoder succeeds with the big-endian
value of the bytes at positions 1 to 8; two such keys that agree on these
positions decode alike, whatever their first byte and the bytes after position 8,
so the keys of the valset-update-id and historical-info fields decode to the
index they encode. -/
theorem decode_depends_on_positions_one_to_eight (key : List Byte) (h9 : 9 ≤ key.length) :
    IdFromPacketMaturityTimeKey key = .value (beValue ((key.drop 1).take 8)) ∧
    (∀ other : List Byte, 9 ≤ other.length → (other.drop 1).take 8 = (key.drop 1).take 8 →
      IdFromPacketMaturityTimeKey other = IdFromPacketMaturityTimeKey key) ∧
    (∀ (t : Byte) (tail : List Byte),
      IdFromPacketMaturityTimeKey (t :: ((key.drop 1).take 8 ++ tail)) =
        IdFromPacketMaturityTimeKey key) ∧
    (∀ x : Nat, x < 2 ^ 64 → IdFromPacketMaturityTimeKey (HeightValsetUpdateIDKey x) = .value x) ∧
    (∀ g : Int, -2 ^ 63 ≤ g → g < 2 ^ 63 →
      IdFromPacketMaturityTimeKey (HistoricalInfoKey g) = .value (g % 2 ^ 64).toNat) := by
  have hk := IdFromPacketMaturityTimeKey_of_length_ge key h9
  have hl : ((key.drop 1).take 8).length = 8 := by
    rw [List.length_take, List.length_drop]
    omega
  refine ⟨hk, ?_, ?_, ?_, ?_⟩
  · intro other ho e
    rw [hk, IdFromPacketMaturityTimeKey_of_length_ge other ho, e]
  · intro t tail
    have hlen : 9 ≤ (t :: ((key.drop 1).take 8 ++ tail)).length := by
      rw [List.length_cons, List.length_append, hl]
      omega
    rw [hk, IdFromPacketMaturityTimeKey_of_length_ge _ hlen, List.drop_one, List.tail_cons,
      List.take_left' hl]
  · intro x hx
    exact IdFromPacketMaturityTimeKey_cons_PutUint64 _ x hx
  · intro g _ _
    exact IdFromPacketMaturityTimeKey_cons_PutUint64 _ _ (uint64OfInt64_lt g)

theorem decode_depends_on_positions_one_to_eight_witness :
    IdFromPacketMaturityTimeKey [8, 0, 0, 0, 0, 0, 0, 1, 44, 99] = .value 300 :=
  (decode_depends_on_positions_one_to_eight [8, 0, 0, 0, 0, 0, 0, 1, 44, 99]
    (by decide)).1.trans (by decide)

theorem PutUint64_beValue_eight (b0 b1 b2 b3 b4 b5 b6 b7 : Byte) :
    PutUint64 (beValue [b0, b1, b2, b3, b4, b5, b6, b7]) = [b0, b1, b2, b3, b4, b5, b6, b7] := by
  have h0 := b0.isLt
  have h1 := b1.isLt
  have h2 := b2.isLt
  have h3 := b3.isLt
  have h4 := b4.isLt
  have h5 := b5.isLt
  have h6 := b6.isLt
  have h7 := b7.isLt
  simp only [PutUint64, beValue_eight, Nat.shiftRight_eq_div_pow, List.cons.injEq, and_true]
  refine ⟨?_, ?_, ?_, ?_, ?_, ?_, ?_, ?_⟩ <;>
    (apply Fin.ext
     simp only [toByte]
     omega)

/-- C16: on every key of exactly 9 bytes whose first byte is the maturity-time tag
the decoder returns an unsigned 64-bit id whose maturity-time key is that very
key, and no other id has this key: the builder is a bijection between the ids
below `2 ^ 64` and the 9-byte keys carrying the tag. -/
theorem encode_decode_roundtrip (key : List Byte) (hlen : key.length = 9)
    (htag : key.head? = some PacketMaturityTimeBytePrefix) :
    ∃ id : Nat, IdFromPacketMaturityTimeKey key = .value id ∧ id < 2 ^ 64 ∧
      PacketMaturityTimeKey id = key ∧
      ∀ p : Nat, p < 2 ^ 64 → PacketMaturityTimeKey p = key → p = id := by
  match key, hlen, htag with
  | [t, b0, b1, b2, b3, b4, b5, b6, b7], _, htag =>
    simp only [List.head?_cons, Option.some.injEq] at htag
    subst htag
    have hdec : IdFromPacketMaturityTimeKey
        [PacketMaturityTimeBytePrefix, b0, b1, b2, b3, b4, b5, b6, b7] =
        .value (beValue [b0, b1, b2, b3, b4, b5, b6, b7]) :=
      IdFromPacketMaturityTimeKey_of_length_ge _ (by simp)
    have hlt : beValue [b0, b1, b2, b3, b4, b5, b6, b7] < 2 ^ 64 :=
      lt_of_lt_of_le (beValue_lt [b0, b1, b2, b3, b4, b5, b6, b7]) (by norm_num)
    have henc : PacketMaturityTimeKey (beValue [b0, b1, b2, b3, b4, b5, b6, b7]) =
        [PacketMaturityTimeBytePrefix, b0, b1, b2, b3, b4, b5, b6, b7] := by
      simp only [PacketMaturityTimeKey, PacketMaturityTimePrefix, List.singleton_append,
        PutUint64_beValue_eight]
    refine ⟨_, hdec, hlt, henc, ?_⟩
    intro p hp e
    have hd := IdFromPacketMaturityTimeKey_cons_PutUint64 PacketMaturityTimeBytePrefix p hp
    have e2 : PacketMaturityTimeBytePrefix :: PutUint64 p =
        [PacketMaturityTimeBytePrefix, b0, b1, b2, b3, b4, b5, b6, b7] := e
    rw [e2, hdec] at hd
    exact (Outcome.value.inj hd).symm

theorem encode_decode_roundtrip_witness :
    ∃ id : Nat, IdFromPacketMaturityTimeKey [7, 0, 0, 0, 0, 0, 0, 1, 44] = .value id ∧
      id < 2 ^ 64 ∧
      PacketMaturityTimeKey id = [7, 0, 0, 0, 0, 0, 0, 1, 44] ∧
      ∀ p : Nat, p < 2 ^ 64 →
        PacketMaturityTimeKey p = [7, 0, 0, 0, 0, 0, 0, 1, 44] → p = id :=
  encode_decode_roundtrip [7, 0, 0, 0, 0, 0, 0, 1, 44] (by decide) (by decide)

/-! ## Nesting of cross-chain validator keys -/

/-- C17: for all byte sequences `a` and `b`, `a` is a byte-prefix of `b` exactly
when the cross-chain validator key of `a` is a byte-prefix of that of `b`; hence
when `a` is a strict prefix of `b` the two keys are distinct and nested. -/
theorem CrossChainValidatorKey_nesting (a b : List Byte) :
    (a <+: b ↔ CrossChainValidatorKey a <+: CrossChainValidatorKey b) ∧
    (a <+: b → a ≠ b →
      CrossChainValidatorKey a <+: CrossChainValidatorKey b ∧
        CrossChainValidatorKey a ≠ CrossChainValidatorKey b) := by
  have hiff : a <+: b ↔ CrossChainValidatorKey a <+: CrossChainValidatorKey b := by
    simp only [CrossChainValidatorKey, CrossChainValidatorPrefix, List.singleton_append,
      List.cons_prefix_cons, true_and]
  refine ⟨hiff, ?_⟩
  intro hpre hne
  refine ⟨hiff.mp hpre, ?_⟩
  intro e
  apply hne
  simpa [CrossChainValidatorKey, CrossChainValidatorPrefix] using e

theorem CrossChainValidatorKey_nesting_witness :
    CrossChainValidatorKey [1] <+: CrossChainValidatorKey [1, 2] ∧
      CrossChainValidatorKey [1] ≠ CrossChainValidatorKey [1, 2] :=
  (CrossChainValidatorKey_nesting [1] [1, 2]).2 ⟨[2], rfl⟩ (by decide)

/-! ## Order of historical-info keys at negative heights -/

theorem uint64OfInt64_neg (n : Int) (h0 : -2 ^ 63 ≤ n) (h1 : n < 0) :
    (uint64OfInt64 n : Int) = n + 2 ^ 64 := by
  unfold uint64OfInt64
  omega

/-- C18: with signed 64-bit heights, the historical-info key of every non-negative
height sorts strictly before the key of every negative height, and for two
negative heights `m < n` the key of `m` sorts strictly before the key of `n`. -/
theorem HistoricalInfoKey_negative_heights :
    (∀ n h : Int, -2 ^ 63 ≤ n → n < 0 → 0 ≤ h → h < 2 ^ 63 →
      bytesLess (HistoricalInfoKey h) (HistoricalInfoKey n) = true) ∧
    (∀ m n : Int, -2 ^ 63 ≤ m → m < n → n < 0 →
      bytesLess (HistoricalInfoKey m) (HistoricalInfoKey n) = true) := by
  constructor
  · intro n h hn0 hn1 hh0 hh1
    have e1 := uint64OfInt64_neg n hn0 hn1
    have e2 := uint64OfInt64_nonneg h hh0 hh1
    simp only [HistoricalInfoKey, HistoricalInfoPrefix, List.singleton_append,
      bytesLess_cons_self]
    rw [bytesLess_PutUint64 _ _ (uint64OfInt64_lt h) (uint64OfInt64_lt n)]
    omega
  · intro m n hm0 hmn hn1
    have e1 := uint64OfInt64_neg m hm0 (by omega)
    have e2 := uint64OfInt64_neg n (by omega) hn1
    simp only [HistoricalInfoKey, HistoricalInfoPrefix, List.singleton_append,
      bytesLess_cons_self]
    rw [bytesLess_PutUint64 _ _ (uint64OfInt64_lt m) (uint64OfInt64_lt n)]
    omega

theorem HistoricalInfoKey_negative_heights_witness :
    bytesLess (HistoricalInfoKey (2 ^ 63 - 1)) (HistoricalInfoKey (-2 ^ 63)) = true ∧
    bytesLess (HistoricalInfoKey (-2)) (HistoricalInfoKey (-1)) = true :=
  ⟨HistoricalInfoKey_negative_heights.1 (-2 ^ 63) (2 ^ 63 - 1) (by decide) (by decide)
      (by decide) (by decide),
    HistoricalInfoKey_negative_heights.2 (-2) (-1) (by decide) (by decide) (by decide)⟩

end KeySpace
